import Mathlib

/-!
Verification development for the concurrency core of mapnik-build-stats
(scripts/src/asyncutil.py): the bounded batch operator `async_batch`, the
process I/O multiplexer `SubprocessFilterProtocol`, and the incremental
digest sink `StreamHasher`.

The Python source is shallowly embedded as executable Lean definitions.
Byte strings are lists of naturals, exception payloads are naturals, and
the event loop is modelled as an explicit scheduler: the environment
chooses, step by step, which in-flight task completes next and when the
suspended consumer coroutine is resumed.
-/

namespace AsyncUtil

/-! ## Digest sink: StreamHasher

Embedding of class StreamHasher (asyncutil.py lines 97-145).  The
underlying hashlib object is modelled by the exact list of bytes it has
absorbed; a digest function `H` abstracts hexdigest.  The single-reader
future `_waiter` is modelled by an explicit state.  Methods that can
raise (a failed assert, or Future.set_result on a completed future,
which raises InvalidStateError) return `none`.
-/

/-- State of the asyncio future `_waiter` owned by a StreamHasher: not yet
resolved, cancelled by its reader, resolved with a digest, or failed with
an exception. -/
inductive Waiter where
  | pending
  | cancelled
  | result (digest : Nat)
  | exc (e : Nat)
deriving DecidableEq

/-- Embedding of a StreamHasher object.  `acc` is the byte sequence the
hashlib object has absorbed so far (its digest is `H acc` for the
abstract digest function `H`). -/
structure StreamHasher where
  eof : Bool
  waiter : Waiter
  exception : Option Nat
  acc : List Nat
deriving DecidableEq

/-- A freshly constructed StreamHasher (constructor, lines 99-107). -/
def StreamHasher.init : StreamHasher :=
  { eof := false, waiter := .pending, exception := none, acc := [] }

/-- Embedding of StreamHasher.feed_data (lines 119-122):
`assert not self._eof` then `if data: self._hasher.update(data)`.
Returns `none` when the assertion fails. -/
def StreamHasher.feed_data (s : StreamHasher) (data : List Nat) : Option StreamHasher :=
  if s.eof then none
  else some { s with acc := if data = [] then s.acc else s.acc ++ data }

/-- Embedding of StreamHasher.feed_eof (lines 124-128): set `_eof`, and
unless the waiter was cancelled, resolve it with the digest of the bytes
absorbed so far.  `Future.set_result` on an already completed
(non-cancelled) future raises InvalidStateError, modelled as `none`. -/
def StreamHasher.feed_eof (H : List Nat → Nat) (s : StreamHasher) : Option StreamHasher :=
  match s.waiter with
  | .cancelled => some { s with eof := true }
  | .pending => some { s with eof := true, waiter := .result (H s.acc) }
  | _ => none

/-- Embedding of StreamHasher.set_exception (lines 133-136), the sink
feed_error capability: record the exception and, unless the waiter was
cancelled, fail it.  Note that `_eof` is NOT set here. -/
def StreamHasher.set_exception (s : StreamHasher) (e : Nat) : Option StreamHasher :=
  match s.waiter with
  | .cancelled => some { s with exception := some e }
  | .pending => some { s with exception := some e, waiter := .exc e }
  | _ => none

/-- Feeding a list of chunks one after another (each call may fail). -/
def feedChunks (s : StreamHasher) (chunks : List (List Nat)) : Option StreamHasher :=
  List.foldlM StreamHasher.feed_data s chunks

/-! ## Process I/O multiplexer: SubprocessFilterProtocol

Embedding of the transport teardown logic of SubprocessFilterProtocol
(asyncutil.py lines 64-92).  The fields mirror `_pipe_fds` (a bitmask of
open output pipes), `_process_exited`, and `_transport` (modelled as a
Bool: still held or already released).  Two ghost fields record how many
times `transport.close()` ran and whether `_maybe_close_transport` ever
dereferenced a transport that was already set to None (which would raise
AttributeError in Python). -/

/-- The two kinds of teardown event delivered by the event loop:
`pipe_connection_lost(fd, exc)` and `process_exited()`. -/
inductive PEv where
  | pipeLost (fd : Nat)
  | procExit
deriving DecidableEq

/-- Teardown-relevant state of a SubprocessFilterProtocol. -/
structure Proto where
  pipe_fds : Nat
  process_exited : Bool
  transport : Bool
  closeCount : Nat
  closeErr : Bool
deriving DecidableEq

/-- Embedding of _maybe_close_transport (lines 89-92): when no output pipe
remains open and the process has exited, close and drop the transport. -/
def maybeClose (p : Proto) : Proto :=
  if p.pipe_fds = 0 ∧ p.process_exited then
    if p.transport then { p with transport := false, closeCount := p.closeCount + 1 }
    else { p with closeErr := true }
  else p

/-- Embedding of pipe_connection_lost (lines 64-83) and process_exited
(lines 85-87).  An fd-0 closure closes stdin and calls connection_lost,
touching none of the teardown state modelled here; any other fd clears its
bit from the mask (`self._pipe_fds &= ~fd`) and re-checks the teardown
condition. -/
def pstep (p : Proto) (e : PEv) : Proto :=
  match e with
  | .pipeLost fd =>
    if fd = 0 then p
    else maybeClose { p with pipe_fds := p.pipe_fds - Nat.land p.pipe_fds fd }
  | .procExit => maybeClose { p with process_exited := true }

/-- Protocol state right after connection_made (lines 34-52) for a process
spawned with a piped stdout and/or stderr: the mask holds one bit per
actually connected output pipe. -/
def initProto (so se : Bool) : Proto :=
  { pipe_fds := (if so then 1 else 0) + (if se then 2 else 0),
    process_exited := false, transport := true, closeCount := 0, closeErr := false }

/-- The multiset of teardown notifications still to be delivered for a
protocol state: one pipe_connection_lost per output pipe still in the
mask, plus process_exited if it has not fired yet.  Each of these fires
exactly once in asyncio, in an arbitrary order. -/
def pendingOf (p : Proto) : List PEv :=
  (if Nat.land p.pipe_fds 1 = 0 then [] else [PEv.pipeLost 1]) ++
    (if Nat.land p.pipe_fds 2 = 0 then [] else [PEv.pipeLost 2]) ++
    (if p.process_exited then [] else [PEv.procExit])

/-- Teardown correctness of one protocol state: the transport was closed
exactly once if the release condition (no open output pipes and process
exited) holds and zero times otherwise, the transport reference is held
iff it was not yet closed, and close was never attempted on a dropped
transport. -/
def GoodP (p : Proto) : Prop :=
  p.pipe_fds ≤ 3 ∧ p.closeErr = false ∧
    p.closeCount = (if p.pipe_fds = 0 ∧ p.process_exited then 1 else 0) ∧
    p.transport = (if p.pipe_fds = 0 ∧ p.process_exited then false else true)

instance (p : Proto) : Decidable (GoodP p) := by
  unfold GoodP
  infer_instance

/-- The protocol state after the first `n` of the events `evs` have been
delivered to a freshly connected protocol. -/
def protoAt (so se : Bool) (evs : List PEv) (n : Nat) : Proto :=
  (evs.take n).foldl pstep (initProto so se)

/-- The claim-facing part of `GoodP`: the transport is released exactly at
the first instant at which both teardown conditions hold, exactly once,
and never released twice or on a missing transport. -/
def releasedIffDone (p : Proto) : Prop :=
  p.closeErr = false ∧
    p.closeCount = (if p.pipe_fds = 0 ∧ p.process_exited then 1 else 0) ∧
    p.transport = (if p.pipe_fds = 0 ∧ p.process_exited then false else true)

/-! ## Bounded batch operator: async_batch

Embedding of async_batch (asyncutil.py lines 148-192) as a labelled
transition system.  The async generator body, together with the helper
coroutine `_whos_on_first` and the completion callback `_task_completed`,
is deterministic between suspension points, so a state holds:

* `input`: the operations not yet pulled from the async iterable;
* `queue`: the deque `futures` of rendezvous slots, a slot being `none`
  (an unresolved future created by the consumer) or `some op` (a future
  resolved with the completed task `op`);
* `numPending`: the local variable `num_pending`;
* `inFlight`: the tasks started with ensure_future whose done callback
  has not yet fired (started but not completed);
* `phase`: where the generator body currently is.

Ghost fields (write-only bookkeeping, read by no transition): `started`
lists tasks in ensure_future order, `completed` lists tasks in the order
their done callbacks fired, `popped` lists tasks in the order their slots
were consumed by `_whos_on_first`, and `yielded` lists the values the
generator actually yielded (`task.result()` of each consumed slot that
held a success).

The environment drives the system with two events: `complete op` (the
event loop finishes in-flight task `op` and runs `_task_completed`) and
`resume` (the event loop reawakens the consumer suspended on the front
future once that future is resolved).  Driving the generator body from a
resumption to its next suspension point is the function `drive`.

An operation that finishes with an exception completes and fills its
rendezvous slot like any other (the callback stores the task object);
the exception re-raises at `task.result()` inside `_whos_on_first`, which
propagates out of the generator and terminates it: phase `crashed`. -/

/-- Outcome a task has once it completes: a result value or a raised
exception (payloads abstracted as naturals). -/
inductive TaskRes where
  | ok (v : Nat)
  | err (e : Nat)
deriving DecidableEq

/-- One asynchronous operation fed to async_batch: an identity plus the
outcome its task will eventually complete with. -/
structure Op where
  id : Nat
  res : TaskRes
deriving DecidableEq

/-- The value task.result() returns for a completed task (for a failed
task this is the exception payload it raises). -/
def Op.value (op : Op) : Nat :=
  match op.res with
  | .ok v => v
  | .err e => e

/-- Control position of the async generator body. -/
inductive BPhase where
  | run
  | waiting (held : Option Op)
  | done
  | crashed (e : Nat)
deriving DecidableEq

/-- Number of operations already pulled from the input but not yet passed
to ensure_future (exactly one while the consumer is suspended inside the
for-loop displacement rendezvous). -/
def heldCount : BPhase → Nat
  | .waiting (some _) => 1
  | _ => 0

/-- Whether the generator has been terminated by a propagating exception. -/
def BPhase.isCrashed : BPhase → Bool
  | .crashed _ => true
  | _ => false

/-- Full state of one async_batch run. -/
structure BState where
  maxC : Int
  input : List Op
  queue : List (Option Op)
  numPending : Nat
  inFlight : List Op
  started : List Op
  completed : List Op
  popped : List Op
  yielded : List Nat
  phase : BPhase
deriving DecidableEq

/-- One deterministic step of the generator body from a `run` position
(returns `none` if the consumer is suspended or finished).  The branches
mirror lines 178-190: pull the next awaitable; if `num_pending <
max_concurrent` admit it, else consume one rendezvous slot first
(`_whos_on_first`: take the front future, await it if unresolved, pop it,
return `task.result()`); after the input is exhausted, drain `num_pending`
slots the same way.  Consuming a slot that holds a failed task re-raises
inside the generator: phase `crashed`, and the held operation (already
pulled from the input) is never started. -/
def consumerStep (s : BState) : Option BState :=
  match s.phase with
  | .run =>
    match s.input with
    | [] =>
      if s.numPending = 0 then some { s with phase := .done }
      else
        match s.queue with
        | [] => some { s with queue := [none], phase := .waiting none }
        | none :: _ => some { s with phase := .waiting none }
        | some t :: q' =>
          match t.res with
          | .ok v =>
            some { s with queue := q', popped := s.popped ++ [t],
                          yielded := s.yielded ++ [v], numPending := s.numPending - 1 }
          | .err ex =>
            some { s with queue := q', popped := s.popped ++ [t], phase := .crashed ex }
    | op :: rest =>
      if (s.numPending : Int) < s.maxC then
        some { s with input := rest, numPending := s.numPending + 1,
                      inFlight := s.inFlight ++ [op], started := s.started ++ [op] }
      else
        match s.queue with
        | [] => some { s with input := rest, queue := [none], phase := .waiting (some op) }
        | none :: _ => some { s with input := rest, phase := .waiting (some op) }
        | some t :: q' =>
          match t.res with
          | .ok v =>
            some { s with input := rest, queue := q', popped := s.popped ++ [t],
                          yielded := s.yielded ++ [v],
                          inFlight := s.inFlight ++ [op], started := s.started ++ [op] }
          | .err ex =>
            some { s with input := rest, queue := q', popped := s.popped ++ [t],
                          phase := .crashed ex }
  | _ => none

/-- Run the generator body until it suspends, finishes or crashes,
with enough fuel. -/
def driveFuel : Nat → BState → BState
  | 0, s => s
  | n + 1, s =>
    match consumerStep s with
    | none => s
    | some s' => driveFuel n s'

/-- Fuel that always suffices: each consumer step either lowers
`2*|input| + num_pending + |queue|` or reaches a suspension point. -/
def measureFuel (s : BState) : Nat :=
  2 * s.input.length + s.numPending + s.queue.length + 1

/-- Run the generator body to quiescence. -/
def drive (s : BState) : BState :=
  driveFuel (measureFuel s) s

/-- Embedding of the done callback _task_completed (lines 159-166): try to
resolve the front future of the deque; set_result raises if the deque is
empty (IndexError) or its front is already resolved (InvalidStateError),
and the bare except then appends a fresh already-resolved future. -/
def taskCompleted (s : BState) (op : Op) : BState :=
  match s.queue with
  | none :: q' => { s with queue := some op :: q' }
  | _ => { s with queue := s.queue ++ [some op] }

/-- Scheduler events: an in-flight task completes (its done callback runs),
or the event loop resumes the consumer suspended on the front future. -/
inductive Ev where
  | complete (op : Op)
  | resume
deriving DecidableEq

/-- One scheduler event.  `complete op` is enabled when `op` is in flight;
it moves the task to `completed` and runs `_task_completed`.  `resume` is
enabled when the consumer is suspended and the front future is resolved:
the consumer pops the slot, and `task.result()` either yields the value
(then the generator body continues: start the held operation, or decrement
`num_pending` in the drain loop) or re-raises and terminates the
generator.  Events that are not enabled leave the state unchanged. -/
def step (s : BState) (e : Ev) : BState :=
  match e with
  | .complete op =>
    if op ∈ s.inFlight then
      taskCompleted { s with inFlight := s.inFlight.erase op,
                             completed := s.completed ++ [op] } op
    else s
  | .resume =>
    match s.phase, s.queue with
    | .waiting k, some t :: q' =>
      match t.res, k with
      | .ok v, some op =>
        drive { s with queue := q', popped := s.popped ++ [t], yielded := s.yielded ++ [v],
                       inFlight := s.inFlight ++ [op], started := s.started ++ [op],
                       phase := .run }
      | .ok v, none =>
        drive { s with queue := q', popped := s.popped ++ [t], yielded := s.yielded ++ [v],
                       numPending := s.numPending - 1, phase := .run }
      | .err ex, _ =>
        { s with queue := q', popped := s.popped ++ [t], phase := .crashed ex }
    | _, _ => s

/-- State of the generator body at its entry point, after the
max_concurrent check has passed (line 151 raised nothing). -/
def initBatch (maxC : Int) (ops : List Op) : BState :=
  { maxC := maxC, input := ops, queue := [], numPending := 0, inFlight := [],
    started := [], completed := [], popped := [], yielded := [], phase := .run }

/-- The state of an async_batch run with bound `maxC` over `ops` after the
generator was first driven to quiescence and the scheduler then delivered
the events `evs`. -/
def runBatch (maxC : Int) (ops : List Op) (evs : List Ev) : BState :=
  List.foldl step (drive (initBatch maxC ops)) evs

/-- A Python call expression `async_batch(aiterable, max_concurrent=n)`
only constructs the async generator object; no line of the body runs
until the first `__anext__` (PEP 525 semantics for `async def` functions
containing `yield`). -/
structure AsyncGen where
  maxC : Int
  ops : List Op
deriving DecidableEq

/-- Calling async_batch: returns the generator object, unconditionally and
without raising, whatever the arguments. -/
def asyncBatchCall (maxC : Int) (ops : List Op) : AsyncGen :=
  { maxC := maxC, ops := ops }

/-- First iteration of the generator: the body starts executing, the
line-151 guard `if max_concurrent <= 0: raise ValueError(...)` fires
before anything else, and otherwise the body runs to its first suspension
point. -/
def agenStart (g : AsyncGen) : Except String BState :=
  if g.maxC ≤ 0 then Except.error "max_concurrent must be >= 1"
  else Except.ok (drive (initBatch g.maxC g.ops))

/-- The reachability invariant of async_batch states, for an initial input
of length `L`; `queue.filterMap id` is the list of resolved tasks sitting
in the deque, oldest first. -/
structure Inv (L : Nat) (s : BState) : Prop where
  maxc_pos : 1 ≤ s.maxC
  pending_le : (s.numPending : Int) ≤ s.maxC
  flight_le : s.inFlight.length + (s.queue.filterMap id).length ≤ s.numPending
  queue_ok : (∀ x ∈ s.queue, x ≠ none) ∨ s.queue = [none]
  none_wait : (none : Option Op) ∈ s.queue → ∃ k, s.phase = BPhase.waiting k
  order : s.completed = s.popped ++ s.queue.filterMap id
  flight_len : s.started.length = s.inFlight.length + s.completed.length
  pend_eq : s.phase.isCrashed = false →
    s.started.length = s.numPending + s.popped.length
  yield_eq : s.phase.isCrashed = false → s.yielded = s.popped.map Op.value
  start_acct : s.phase.isCrashed = false →
    s.started.length + s.input.length + heldCount s.phase = L
  wait_pend : ∀ k, s.phase = BPhase.waiting k → 0 < s.numPending
  done_st : s.phase = BPhase.done → s.input = [] ∧ s.numPending = 0

end AsyncUtil

namespace AsyncUtil

/-! ## Lemmas and claim theorems for the digest sink -/

theorem feedChunks_eq (w : Waiter) (x : Option Nat) :
    ∀ (chunks : List (List Nat)) (a : List Nat),
      feedChunks ⟨false, w, x, a⟩ chunks = some ⟨false, w, x, a ++ chunks.flatten⟩ := by
  intro chunks
  induction chunks with
  | nil => intro a; simp [feedChunks]
  | cons c cs ih =>
    intro a
    by_cases hc : c = []
    · subst hc
      simpa [feedChunks, StreamHasher.feed_data] using ih a
    · simpa [feedChunks, StreamHasher.feed_data, hc, List.append_assoc] using ih (a ++ c)

/-- C7: a StreamHasher fed bytes in any chunking (then feed_end) yields the
same final digest, and in fact the same final state, as one fed the whole
concatenation in a single feed_data call: chunk invariance of the running
hash, empty chunks included. -/
theorem streamHasher_chunk_invariance (H : List Nat → Nat) (chunks : List (List Nat)) :
    (feedChunks StreamHasher.init chunks).bind (StreamHasher.feed_eof H) =
      (StreamHasher.init.feed_data chunks.flatten).bind (StreamHasher.feed_eof H) := by
  have h1 := feedChunks_eq Waiter.pending none chunks []
  by_cases hj : chunks.flatten = []
  · simp [StreamHasher.init, h1, hj, StreamHasher.feed_data]
  · simp [StreamHasher.init, h1, hj, StreamHasher.feed_data]

/-- C9 counterexample: after the sink is terminated by feed_error
(set_exception), a further feed_data call is NOT rejected: the guard in
feed_data only tests `_eof`, which set_exception does not set, so the call
succeeds and silently updates the running digest state. -/
theorem streamHasher_feed_after_error_cex :
    (StreamHasher.init.set_exception 5).bind (fun u => u.feed_data [1, 2]) =
      some ⟨false, Waiter.exc 5, some 5, [1, 2]⟩ := by
  decide

/-- C9 amended: it is an error to call feed after feed_end (the eof assert
fires), but a feed after feed_error alone is not rejected: it succeeds and
updates the absorbed byte sequence. -/
theorem streamHasher_termination_guard (H : List Nat → Nat) (s s' : StreamHasher)
    (data : List Nat) (e : Nat)
    (h1 : StreamHasher.feed_eof H s = some s')
    (h2 : s.eof = false) (h3 : s.waiter = .pending) :
    s'.feed_data data = none ∧
      (s.set_exception e).bind (fun u => u.feed_data data) =
        some { s with exception := some e, waiter := .exc e,
                      acc := if data = [] then s.acc else s.acc ++ data } := by
  constructor
  · have hs' : s' = { s with eof := true, waiter := .result (H s.acc) } := by
      rw [StreamHasher.feed_eof, h3] at h1
      exact (Option.some.injEq _ _).mp h1 |>.symm
    rw [hs', StreamHasher.feed_data]
    simp
  · rw [StreamHasher.set_exception, h3]
    simp [StreamHasher.feed_data, h2]

/-- C9 witness: the amended theorem at a concrete input. -/
theorem streamHasher_termination_guard_witness :
    StreamHasher.feed_data ⟨true, Waiter.result 0, none, []⟩ [3] = none :=
  (streamHasher_termination_guard (fun _ => 0) StreamHasher.init
    ⟨true, Waiter.result 0, none, []⟩ [3] 5 rfl rfl rfl).1

/-- C10: once the single reader has cancelled its wait, feed_eof and
set_exception complete without raising: the cancellation guard skips
set_result / set_exception on the future, so only the eof flag
(respectively the stored exception) changes. -/
theorem streamHasher_cancelled_safe (H : List Nat → Nat) (s : StreamHasher) (e : Nat)
    (h : s.waiter = .cancelled) :
    s.feed_eof H = some { s with eof := true } ∧
      s.set_exception e = some { s with exception := some e } := by
  rw [StreamHasher.feed_eof, StreamHasher.set_exception, h]
  exact ⟨rfl, rfl⟩

/-- C10 witness: the theorem at a concrete cancelled-reader state. -/
theorem streamHasher_cancelled_safe_witness :
    StreamHasher.feed_eof (fun _ => 0) ⟨false, Waiter.cancelled, none, []⟩ =
        some ⟨true, Waiter.cancelled, none, []⟩ ∧
      StreamHasher.set_exception ⟨false, Waiter.cancelled, none, []⟩ 4 =
        some ⟨false, Waiter.cancelled, some 4, []⟩ :=
  streamHasher_cancelled_safe (fun _ => 0) ⟨false, Waiter.cancelled, none, []⟩ 4 rfl

/-! ## Invariant preservation for async_batch -/

theorem length_filterMap_all_some :
    ∀ {q : List (Option Op)}, (∀ x ∈ q, x ≠ none) → (q.filterMap id).length = q.length := by
  intro q
  induction q with
  | nil => intro _; rfl
  | cons x q' ih =>
    intro h
    cases x with
    | none => exact absurd rfl (h none (List.mem_cons_self _ _))
    | some a =>
      have := ih fun y hy => h y (List.mem_cons_of_mem _ hy)
      simp [List.filterMap_cons, this]

@[simp] theorem heldCount_run : heldCount BPhase.run = 0 := rfl

@[simp] theorem heldCount_done : heldCount BPhase.done = 0 := rfl

@[simp] theorem heldCount_waiting_none : heldCount (BPhase.waiting none) = 0 := rfl

@[simp] theorem heldCount_waiting_some (op : Op) :
    heldCount (BPhase.waiting (some op)) = 1 := rfl

@[simp] theorem heldCount_crashed (e : Nat) : heldCount (BPhase.crashed e) = 0 := rfl

theorem inv_consumerStep {L : Nat} {s s' : BState} (hI : Inv L s)
    (h : consumerStep s = some s') : Inv L s' := by
  obtain ⟨i1, i2, i3, i4, i5, i6, i7, i8, i9, i10, i11, i12⟩ := hI
  obtain ⟨mc, inp, q, np, fl, st, cp, po, yl, ph⟩ := s
  dsimp only at i1 i2 i3 i4 i5 i6 i7 i8 i9 i10 i11 i12 h
  cases ph with
  | waiting k => exact absurd h (by simp [consumerStep])
  | done => exact absurd h (by simp [consumerStep])
  | crashed e => exact absurd h (by simp [consumerStep])
  | run =>
  cases inp with
  | nil =>
    simp only [consumerStep] at h
    by_cases hnp : np = 0
    · rw [if_pos hnp] at h
      simp only [Option.some.injEq] at h
      subst h
      constructor
      · exact i1
      · exact i2
      · exact i3
      · exact i4
      · intro hm
        obtain ⟨k, hk⟩ := i5 hm
        exact nomatch hk
      · exact i6
      · exact i7
      · intro _; exact i8 rfl
      · intro _; exact i9 rfl
      · intro _; exact i10 rfl
      · intro k hk; exact nomatch hk
      · intro _; exact ⟨rfl, hnp⟩
    · rw [if_neg hnp] at h
      cases q with
      | nil =>
        simp only [Option.some.injEq] at h
        subst h
        constructor
        · exact i1
        · exact i2
        · exact i3
        · exact Or.inr rfl
        · intro _; exact ⟨none, rfl⟩
        · exact i6
        · exact i7
        · intro _; exact i8 rfl
        · intro _; exact i9 rfl
        · intro _; exact i10 rfl
        · intro k _; exact Nat.pos_of_ne_zero hnp
        · intro hk; exact nomatch hk
      | cons x q' =>
        cases x with
        | none =>
          obtain ⟨k, hk⟩ := i5 (List.mem_cons_self _ _)
          exact nomatch hk
        | some t =>
          obtain ⟨tid, tres⟩ := t
          have hq'ne : ∀ y ∈ q', y ≠ (none : Option Op) := by
            rcases i4 with h4 | h4
            · exact fun y hy => h4 y (List.mem_cons_of_mem _ hy)
            · exact absurd (List.cons.injEq .. |>.mp h4).1 (by simp)
          have hfm : (some ⟨tid, tres⟩ :: q').filterMap id =
              ⟨tid, tres⟩ :: q'.filterMap id := rfl
          rw [hfm] at i3 i6
          cases tres with
          | ok v =>
            simp only [Option.some.injEq] at h
            subst h
            constructor
            · exact i1
            · dsimp only; omega
            · dsimp only
              simp only [List.length_cons] at i3
              omega
            · exact Or.inl hq'ne
            · intro hm; exact absurd rfl (hq'ne none hm)
            · dsimp only
              rw [i6, List.append_cons]
            · exact i7
            · intro _
              have h8 := i8 rfl
              dsimp only
              simp only [List.length_append, List.length_cons, List.length_nil]
              omega
            · intro _
              have h9 := i9 rfl
              dsimp only
              rw [h9, List.map_append]
              simp [Op.value]
            · intro _; exact i10 rfl
            · intro k hk; exact nomatch hk
            · intro hk; exact nomatch hk
          | err ex =>
            simp only [Option.some.injEq] at h
            subst h
            constructor
            · exact i1
            · exact i2
            · dsimp only
              simp only [List.length_cons] at i3
              omega
            · exact Or.inl hq'ne
            · intro hm; exact absurd rfl (hq'ne none hm)
            · dsimp only
              rw [i6, List.append_cons]
            · exact i7
            · intro hc; exact nomatch hc
            · intro hc; exact nomatch hc
            · intro hc; exact nomatch hc
            · intro k hk; exact nomatch hk
            · intro hk; exact nomatch hk
  | cons op rest =>
    simp only [consumerStep] at h
    by_cases hlt : (np : Int) < mc
    · rw [if_pos hlt] at h
      simp only [Option.some.injEq] at h
      subst h
      constructor
      · exact i1
      · dsimp only
        push_cast
        omega
      · dsimp only
        simp only [List.length_append, List.length_cons, List.length_nil]
        omega
      · exact i4
      · intro hm
        obtain ⟨k, hk⟩ := i5 hm
        exact nomatch hk
      · exact i6
      · dsimp only
        simp only [List.length_append, List.length_cons, List.length_nil]
        omega
      · intro _
        have h8 := i8 rfl
        dsimp only
        simp only [List.length_append, List.length_cons, List.length_nil]
        omega
      · intro _; exact i9 rfl
      · intro _
        have h10 := i10 rfl
        dsimp only
        simp only [List.length_append, List.length_cons, List.length_nil,
          heldCount_run] at h10 ⊢
        omega
      · intro k hk; exact nomatch hk
      · intro hk; exact nomatch hk
    · rw [if_neg hlt] at h
      cases q with
      | nil =>
        simp only [Option.some.injEq] at h
        subst h
        constructor
        · exact i1
        · exact i2
        · exact i3
        · exact Or.inr rfl
        · intro _; exact ⟨some op, rfl⟩
        · exact i6
        · exact i7
        · intro _; exact i8 rfl
        · intro _; exact i9 rfl
        · intro _
          have h10 := i10 rfl
          dsimp only
          simp only [List.length_cons, heldCount_run, heldCount_waiting_some] at h10 ⊢
          omega
        · intro k _
          dsimp only
          omega
        · intro hk; exact nomatch hk
      | cons x q' =>
        cases x with
        | none =>
          obtain ⟨k, hk⟩ := i5 (List.mem_cons_self _ _)
          exact nomatch hk
        | some t =>
          obtain ⟨tid, tres⟩ := t
          have hq'ne : ∀ y ∈ q', y ≠ (none : Option Op) := by
            rcases i4 with h4 | h4
            · exact fun y hy => h4 y (List.mem_cons_of_mem _ hy)
            · exact absurd (List.cons.injEq .. |>.mp h4).1 (by simp)
          have hfm : (some ⟨tid, tres⟩ :: q').filterMap id =
              ⟨tid, tres⟩ :: q'.filterMap id := rfl
          rw [hfm] at i3 i6
          cases tres with
          | ok v =>
            simp only [Option.some.injEq] at h
            subst h
            constructor
            · exact i1
            · exact i2
            · dsimp only
              simp only [List.length_cons] at i3
              simp only [List.length_append, List.length_cons, List.length_nil]
              omega
            · exact Or.inl hq'ne
            · intro hm; exact absurd rfl (hq'ne none hm)
            · dsimp only
              rw [i6, List.append_cons]
            · dsimp only
              simp only [List.length_append, List.length_cons, List.length_nil]
              omega
            · intro _
              have h8 := i8 rfl
              dsimp only
              simp only [List.length_append, List.length_cons, List.length_nil]
              omega
            · intro _
              have h9 := i9 rfl
              dsimp only
              rw [h9, List.map_append]
              simp [Op.value]
            · intro _
              have h10 := i10 rfl
              dsimp only
              simp only [List.length_append, List.length_cons, List.length_nil,
                heldCount_run] at h10 ⊢
              omega
            · intro k hk; exact nomatch hk
            · intro hk; exact nomatch hk
          | err ex =>
            simp only [Option.some.injEq] at h
            subst h
            constructor
            · exact i1
            · exact i2
            · dsimp only
              simp only [List.length_cons] at i3
              omega
            · exact Or.inl hq'ne
            · intro hm; exact absurd rfl (hq'ne none hm)
            · dsimp only
              rw [i6, List.append_cons]
            · exact i7
            · intro hc; exact nomatch hc
            · intro hc; exact nomatch hc
            · intro hc; exact nomatch hc
            · intro k hk; exact nomatch hk
            · intro hk; exact nomatch hk

theorem inv_driveFuel {L : Nat} (n : Nat) {s : BState} (hI : Inv L s) :
    Inv L (driveFuel n s) := by
  induction n generalizing s with
  | zero => exact hI
  | succ m ih =>
    rw [driveFuel]
    cases hc : consumerStep s with
    | none => exact hI
    | some s' => exact ih (inv_consumerStep hI hc)

theorem inv_drive {L : Nat} {s : BState} (hI : Inv L s) : Inv L (drive s) :=
  inv_driveFuel (measureFuel s) hI

theorem filterMap_id_singleton (op : Op) : List.filterMap id [some op] = [op] := rfl

theorem filterMap_id_none : List.filterMap id [(none : Option Op)] = [] := rfl

theorem inv_step {L : Nat} {s : BState} (hI : Inv L s) (e : Ev) : Inv L (step s e) := by
  cases e with
  | complete op =>
    by_cases hmem : op ∈ s.inFlight
    · obtain ⟨i1, i2, i3, i4, i5, i6, i7, i8, i9, i10, i11, i12⟩ := hI
      obtain ⟨mc, inp, q, np, fl, st, cp, po, yl, ph⟩ := s
      dsimp only at i1 i2 i3 i4 i5 i6 i7 i8 i9 i10 i11 i12 hmem
      have herase : (fl.erase op).length = fl.length - 1 := List.length_erase_of_mem hmem
      have hflpos : 0 < fl.length := List.length_pos.mpr (List.ne_nil_of_mem hmem)
      simp only [step, if_pos hmem]
      cases q with
      | nil =>
        simp only [taskCompleted]
        constructor
        · exact i1
        · exact i2
        · dsimp only
          rw [herase]
          simp only [List.nil_append]
          rw [filterMap_id_singleton]
          simp only [List.filterMap_nil, List.length_nil] at i3
          simp only [List.length_cons, List.length_nil]
          omega
        · refine Or.inl ?_
          intro y hy
          simp only [List.nil_append, List.mem_singleton] at hy
          subst hy
          simp
        · intro hm
          simp at hm
        · dsimp only
          rw [i6]
          simp [List.filterMap_cons]
        · dsimp only
          rw [herase]
          simp only [List.length_append, List.length_cons, List.length_nil]
          omega
        · intro hc
          have h8 := i8 hc
          dsimp only
          exact h8
        · intro hc; exact i9 hc
        · intro hc; exact i10 hc
        · exact i11
        · exact i12
      | cons x q'' =>
        cases x with
        | none =>
          have hq : q'' = [] := by
            rcases i4 with h4 | h4
            · exact absurd rfl (h4 none (List.mem_cons_self _ _))
            · exact (List.cons.injEq .. |>.mp h4).2
          subst hq
          simp only [taskCompleted]
          constructor
          · exact i1
          · exact i2
          · dsimp only
            rw [herase, filterMap_id_singleton]
            rw [filterMap_id_none] at i3
            simp only [List.length_nil, List.length_cons] at i3 ⊢
            omega
          · refine Or.inl ?_
            intro y hy
            simp only [List.mem_singleton] at hy
            subst hy
            simp
          · intro hm
            simp at hm
          · dsimp only
            rw [i6, filterMap_id_none, filterMap_id_singleton]
            simp
          · dsimp only
            rw [herase]
            simp only [List.length_append, List.length_cons, List.length_nil]
            omega
          · intro hc
            exact i8 hc
          · intro hc; exact i9 hc
          · intro hc; exact i10 hc
          · exact i11
          · exact i12
        | some t =>
          have hqne : ∀ y ∈ some t :: q'', y ≠ (none : Option Op) := by
            rcases i4 with h4 | h4
            · exact h4
            · exact absurd (List.cons.injEq .. |>.mp h4).1 (by simp)
          have hfm2 : ((some t :: q'') ++ [some op]).filterMap id =
              (some t :: q'').filterMap id ++ [op] := by
            rw [List.filterMap_append]
            rfl
          simp only [taskCompleted]
          constructor
          · exact i1
          · exact i2
          · dsimp only
            rw [herase, hfm2]
            simp only [List.length_append, List.length_cons, List.length_nil]
            omega
          · refine Or.inl ?_
            intro y hy
            rcases List.mem_append.mp hy with hy | hy
            · exact hqne y hy
            · simp only [List.mem_singleton] at hy
              subst hy
              simp
          · intro hm
            rcases List.mem_append.mp hm with hm | hm
            · exact absurd rfl (hqne none hm)
            · simp at hm
          · dsimp only
            rw [hfm2, i6, List.append_assoc]
          · dsimp only
            rw [herase]
            simp only [List.length_append, List.length_cons, List.length_nil]
            omega
          · intro hc; exact i8 hc
          · intro hc; exact i9 hc
          · intro hc; exact i10 hc
          · exact i11
          · exact i12
    · simp only [step, if_neg hmem]
      exact hI
  | resume =>
    obtain ⟨mc, inp, q, np, fl, st, cp, po, yl, ph⟩ := s
    cases ph with
    | run =>
      cases q with
      | nil => simpa [step] using hI
      | cons x q'' =>
        cases x with
        | none => simpa [step] using hI
        | some t => simpa [step] using hI
    | done =>
      cases q with
      | nil => simpa [step] using hI
      | cons x q'' =>
        cases x with
        | none => simpa [step] using hI
        | some t => simpa [step] using hI
    | crashed e =>
      cases q with
      | nil => simpa [step] using hI
      | cons x q'' =>
        cases x with
        | none => simpa [step] using hI
        | some t => simpa [step] using hI
    | waiting k =>
      cases q with
      | nil => simpa [step] using hI
      | cons x q'' =>
        cases x with
        | none => simpa [step] using hI
        | some t =>
          obtain ⟨i1, i2, i3, i4, i5, i6, i7, i8, i9, i10, i11, i12⟩ := hI
          dsimp only at i1 i2 i3 i4 i5 i6 i7 i8 i9 i10 i11 i12
          obtain ⟨tid, tres⟩ := t
          have hq''ne : ∀ y ∈ q'', y ≠ (none : Option Op) := by
            rcases i4 with h4 | h4
            · exact fun y hy => h4 y (List.mem_cons_of_mem _ hy)
            · exact absurd (List.cons.injEq .. |>.mp h4).1 (by simp)
          have hfm : (some ⟨tid, tres⟩ :: q'').filterMap id =
              ⟨tid, tres⟩ :: q''.filterMap id := rfl
          rw [hfm] at i3 i6
          cases tres with
          | ok v =>
            cases k with
            | some op =>
              simp only [step]
              refine inv_drive ?_
              constructor
              · exact i1
              · exact i2
              · dsimp only
                simp only [List.length_cons] at i3
                simp only [List.length_append, List.length_cons, List.length_nil]
                omega
              · exact Or.inl hq''ne
              · intro hm; exact absurd rfl (hq''ne none hm)
              · dsimp only
                rw [i6, List.append_cons]
              · dsimp only
                simp only [List.length_append, List.length_cons, List.length_nil]
                omega
              · intro _
                have h8 := i8 rfl
                dsimp only
                simp only [List.length_append, List.length_cons, List.length_nil]
                omega
              · intro _
                have h9 := i9 rfl
                dsimp only
                rw [h9, List.map_append]
                simp [Op.value]
              · intro _
                have h10 := i10 rfl
                dsimp only
                simp only [List.length_append, List.length_cons, List.length_nil,
                  heldCount_run, heldCount_waiting_some] at h10 ⊢
                omega
              · intro k hk; exact nomatch hk
              · intro hk; exact nomatch hk
            | none =>
              have hpos : 0 < np := i11 none rfl
              simp only [step]
              refine inv_drive ?_
              constructor
              · exact i1
              · dsimp only
                omega
              · dsimp only
                simp only [List.length_cons] at i3
                omega
              · exact Or.inl hq''ne
              · intro hm; exact absurd rfl (hq''ne none hm)
              · dsimp only
                rw [i6, List.append_cons]
              · exact i7
              · intro _
                have h8 := i8 rfl
                dsimp only
                simp only [List.length_append, List.length_cons, List.length_nil]
                omega
              · intro _
                have h9 := i9 rfl
                dsimp only
                rw [h9, List.map_append]
                simp [Op.value]
              · intro _
                have h10 := i10 rfl
                dsimp only
                simp only [heldCount_run, heldCount_waiting_none] at h10 ⊢
                omega
              · intro k hk; exact nomatch hk
              · intro hk; exact nomatch hk
          | err ex =>
            simp only [step]
            constructor
            · exact i1
            · exact i2
            · dsimp only
              simp only [List.length_cons] at i3
              omega
            · exact Or.inl hq''ne
            · intro hm; exact absurd rfl (hq''ne none hm)
            · dsimp only
              rw [i6, List.append_cons]
            · exact i7
            · intro hc; exact nomatch hc
            · intro hc; exact nomatch hc
            · intro hc; exact nomatch hc
            · intro k hk; exact nomatch hk
            · intro hk; exact nomatch hk

theorem inv_runEvents {L : Nat} {s : BState} (hI : Inv L s) :
    ∀ evs : List Ev, Inv L (List.foldl step s evs) := by
  intro evs
  induction evs generalizing s with
  | nil => exact hI
  | cons e rest ih =>
    rw [List.foldl_cons]
    exact ih (inv_step hI e)

theorem inv_init (maxC : Int) (ops : List Op) (h : 1 ≤ maxC) :
    Inv ops.length (initBatch maxC ops) := by
  constructor
  · exact h
  · dsimp only [initBatch]
    omega
  · exact Nat.le.refl
  · exact Or.inl fun y hy => absurd hy (List.not_mem_nil y)
  · intro hm
    exact absurd hm (List.not_mem_nil _)
  · rfl
  · rfl
  · intro _; rfl
  · intro _; rfl
  · intro _
    dsimp only [initBatch]
    simp
  · intro k hk; exact nomatch hk
  · intro hk; exact nomatch hk

theorem inv_runBatch (maxC : Int) (ops : List Op) (evs : List Ev) (h : 1 ≤ maxC) :
    Inv ops.length (runBatch maxC ops evs) :=
  inv_runEvents (inv_drive (inv_init maxC ops h)) evs

theorem consumerStep_maxC {s s' : BState} (h : consumerStep s = some s') :
    s'.maxC = s.maxC := by
  unfold consumerStep at h
  repeat' split at h
  all_goals
    first
      | (simp only [Option.some.injEq] at h; subst h; rfl)
      | simp at h

theorem driveFuel_maxC (n : Nat) : ∀ s : BState, (driveFuel n s).maxC = s.maxC := by
  induction n with
  | zero => intro s; rfl
  | succ m ih =>
    intro s
    cases hc : consumerStep s with
    | none => rw [driveFuel, hc]
    | some s' =>
      rw [driveFuel, hc]
      rw [ih s', consumerStep_maxC hc]

theorem drive_maxC (s : BState) : (drive s).maxC = s.maxC :=
  driveFuel_maxC (measureFuel s) s

theorem step_maxC (s : BState) (e : Ev) : (step s e).maxC = s.maxC := by
  unfold step
  repeat' split
  all_goals
    first
      | rfl
      | (unfold taskCompleted; split <;> rfl)
      | (rw [drive_maxC])

theorem runEvents_maxC (evs : List Ev) : ∀ s : BState, (List.foldl step s evs).maxC = s.maxC := by
  induction evs with
  | nil => intro s; rfl
  | cons e rest ih =>
    intro s
    rw [List.foldl_cons, ih, step_maxC]

theorem runBatch_maxC (maxC : Int) (ops : List Op) (evs : List Ev) :
    (runBatch maxC ops evs).maxC = maxC := by
  rw [runBatch, runEvents_maxC, drive_maxC]
  rfl

theorem crash_absorbing :
    ∀ (evs : List Ev) (s : BState) (e : Nat), s.phase = BPhase.crashed e →
      (List.foldl step s evs).phase = BPhase.crashed e ∧
      (List.foldl step s evs).popped = s.popped ∧
      (List.foldl step s evs).yielded = s.yielded ∧
      (List.foldl step s evs).inFlight.length + (List.foldl step s evs).completed.length =
        s.inFlight.length + s.completed.length := by
  intro evs
  induction evs with
  | nil => intro s e h; exact ⟨h, rfl, rfl, rfl⟩
  | cons ev rest ih =>
    intro s e h
    rw [List.foldl_cons]
    have hstep : (step s ev).phase = BPhase.crashed e ∧ (step s ev).popped = s.popped ∧
        (step s ev).yielded = s.yielded ∧
        (step s ev).inFlight.length + (step s ev).completed.length =
          s.inFlight.length + s.completed.length := by
      obtain ⟨mc, inp, q, np, fl, st, cp, po, yl, ph⟩ := s
      dsimp only at h
      subst h
      cases ev with
      | complete op =>
        by_cases hmem : op ∈ fl
        · have herase : (fl.erase op).length = fl.length - 1 :=
            List.length_erase_of_mem hmem
          have hflpos : 0 < fl.length := List.length_pos.mpr (List.ne_nil_of_mem hmem)
          cases q with
          | nil =>
            simp only [step, if_pos hmem, taskCompleted]
            refine ⟨trivial, trivial, trivial, ?_⟩
            dsimp only
            rw [herase]
            simp only [List.length_append, List.length_cons, List.length_nil]
            omega
          | cons x q' =>
            cases x with
            | none =>
              simp only [step, if_pos hmem, taskCompleted]
              refine ⟨trivial, trivial, trivial, ?_⟩
              dsimp only
              rw [herase]
              simp only [List.length_append, List.length_cons, List.length_nil]
              omega
            | some t =>
              simp only [step, if_pos hmem, taskCompleted]
              refine ⟨trivial, trivial, trivial, ?_⟩
              dsimp only
              rw [herase]
              simp only [List.length_append, List.length_cons, List.length_nil]
              omega
        · simp only [step, if_neg hmem]
          exact ⟨trivial, trivial, trivial, trivial⟩
      | resume =>
        cases q with
        | nil => exact ⟨rfl, rfl, rfl, rfl⟩
        | cons x q' =>
          cases x with
          | none => exact ⟨rfl, rfl, rfl, rfl⟩
          | some t => exact ⟨rfl, rfl, rfl, rfl⟩
    obtain ⟨h1, h2, h3, h4⟩ := hstep
    obtain ⟨g1, g2, g3, g4⟩ := ih (step s ev) e h1
    exact ⟨g1, g2.trans h2, g3.trans h3, by omega⟩

theorem done_facts {L : Nat} {s : BState} (hI : Inv L s) (hd : s.phase = BPhase.done) :
    s.queue = [] ∧ s.inFlight = [] ∧ s.popped = s.completed ∧ s.popped.length = L ∧
      s.yielded = s.popped.map Op.value := by
  obtain ⟨i1, i2, i3, i4, i5, i6, i7, i8, i9, i10, i11, i12⟩ := hI
  have hnc : s.phase.isCrashed = false := by rw [hd]; rfl
  obtain ⟨hin, hnp⟩ := i12 hd
  have h8 := i8 hnc
  have h9 := i9 hnc
  have h10 := i10 hnc
  have hlen : s.completed.length = s.popped.length + (s.queue.filterMap id).length := by
    rw [i6]
    simp [List.length_append]
  have hfm0 : (s.queue.filterMap id).length = 0 := by omega
  have hfl0 : s.inFlight.length = 0 := by omega
  have hq : s.queue = [] := by
    rcases i4 with h4 | h4
    · have hlq := length_filterMap_all_some h4
      have : s.queue.length = 0 := by omega
      exact List.length_eq_zero.mp this
    · exfalso
      obtain ⟨k, hk⟩ := i5 (by rw [h4]; exact List.mem_cons_self _ _)
      rw [hd] at hk
      exact nomatch hk
  have hfl : s.inFlight = [] := List.length_eq_zero.mp hfl0
  have hpc : s.popped = s.completed := by
    rw [i6, hq]
    simp
  refine ⟨hq, hfl, hpc, ?_, h9⟩
  rw [hd] at h10
  simp only [hin, List.length_nil, heldCount_done] at h10
  omega

theorem waiting_progress {L : Nat} {s : BState} (hI : Inv L s) (k : Option Op)
    (hw : s.phase = BPhase.waiting k) :
    s.inFlight ≠ [] ∨ ∃ t q', s.queue = some t :: q' := by
  obtain ⟨i1, i2, i3, i4, i5, i6, i7, i8, i9, i10, i11, i12⟩ := hI
  by_cases hf : s.inFlight = []
  · right
    have hnc : s.phase.isCrashed = false := by rw [hw]; rfl
    have h8 := i8 hnc
    have hpos := i11 k hw
    have hlen : s.completed.length = s.popped.length + (s.queue.filterMap id).length := by
      rw [i6]
      simp [List.length_append]
    have hfl0 : s.inFlight.length = 0 := by rw [hf]; rfl
    have hfm_pos : 0 < (s.queue.filterMap id).length := by omega
    rcases i4 with h4 | h4
    · cases hq : s.queue with
      | nil =>
        rw [hq] at hfm_pos
        simp at hfm_pos
      | cons x q' =>
        cases x with
        | none =>
          have hm : (none : Option Op) ∈ s.queue := by
            rw [hq]
            exact List.mem_cons_self _ _
          exact absurd rfl (h4 none hm)
        | some t => exact ⟨t, q', rfl⟩
    · rw [h4, filterMap_id_none] at hfm_pos
      simp at hfm_pos
  · left
    exact hf

/-! ## Lemmas and claim theorems for the multiplexer -/

theorem goodP_step (p : Proto) (e : PEv) (hg : GoodP p) (he : e ∈ pendingOf p) :
    GoodP (pstep p e) ∧ (pendingOf p).Perm (e :: pendingOf (pstep p e)) := by
  obtain ⟨fds, ex, tr, cc, ce⟩ := p
  obtain ⟨hb, herr, hcnt, htr⟩ := hg
  dsimp only at hb herr hcnt htr
  have h4 : fds = 0 ∨ fds = 1 ∨ fds = 2 ∨ fds = 3 := by omega
  subst herr
  cases ex <;> rcases h4 with rfl | rfl | rfl | rfl <;> simp at hcnt htr <;>
    subst hcnt <;> subst htr <;> revert he <;> revert e <;> decide

theorem protoRun_aux (evs : List PEv) : ∀ (p : Proto), GoodP p → evs.Perm (pendingOf p) →
    (∀ n, GoodP ((evs.take n).foldl pstep p)) ∧ pendingOf (evs.foldl pstep p) = [] := by
  induction evs with
  | nil =>
    intro p hg hperm
    have hnil : pendingOf p = [] := hperm.symm.eq_nil
    exact ⟨fun n => by simpa using hg, by simpa using hnil⟩
  | cons e rest ih =>
    intro p hg hperm
    have he : e ∈ pendingOf p := hperm.mem_iff.mp (List.mem_cons_self e rest)
    obtain ⟨hg', hperm'⟩ := goodP_step p e hg he
    have hrest : rest.Perm (pendingOf (pstep p e)) := (hperm.trans hperm').cons_inv
    obtain ⟨hall, hfin⟩ := ih (pstep p e) hg' hrest
    refine ⟨fun n => ?_, by simpa using hfin⟩
    cases n with
    | zero => simpa using hg
    | succ m => simpa using hall m

theorem pendingOf_mk (fds : Nat) (ex tr : Bool) (cc : Nat) (ce : Bool) :
    pendingOf ⟨fds, ex, tr, cc, ce⟩ =
      (if Nat.land fds 1 = 0 then [] else [PEv.pipeLost 1]) ++
        (if Nat.land fds 2 = 0 then [] else [PEv.pipeLost 2]) ++
        (if ex then [] else [PEv.procExit]) := rfl

theorem pendingOf_nil (p : Proto) (hb : p.pipe_fds ≤ 3) (h : pendingOf p = []) :
    p.pipe_fds = 0 ∧ p.process_exited = true := by
  obtain ⟨fds, ex, tr, cc, ce⟩ := p
  dsimp only at hb h ⊢
  rw [pendingOf_mk] at h
  have h4 : fds = 0 ∨ fds = 1 ∨ fds = 2 ∨ fds = 3 := by omega
  cases ex <;> rcases h4 with rfl | rfl | rfl | rfl <;> revert h <;> decide

/-- C4: for a freshly connected SubprocessFilterProtocol, whatever the
arrival order of the per-pipe closure notifications and the process-exit
notification, after every prefix of the delivery the transport has been
released exactly once if both "process exited" and "no output pipes open"
hold and zero times otherwise (so the release happens precisely at the
first instant both are true, checked after each event), it is never closed
twice nor on an already dropped transport, and after all events it has
been released exactly once. -/
theorem multiplexer_release_exactly_once (so se : Bool) (evs : List PEv)
    (h : evs.Perm (pendingOf (initProto so se))) :
    (∀ n, releasedIffDone (protoAt so se evs n)) ∧
      (protoAt so se evs evs.length).closeCount = 1 ∧
      (protoAt so se evs evs.length).transport = false := by
  have hg : GoodP (initProto so se) := by cases so <;> cases se <;> decide
  obtain ⟨hall, hfin⟩ := protoRun_aux evs (initProto so se) hg h
  have htake : evs.take evs.length = evs := List.take_length evs
  have h1 := hall evs.length
  rw [htake] at h1
  have hgfin : GoodP (protoAt so se evs evs.length) := by
    rw [protoAt, htake]; exact h1
  have hfin' : pendingOf (protoAt so se evs evs.length) = [] := by
    rw [protoAt, htake]; exact hfin
  obtain ⟨hb, herr, hcnt, htr⟩ := hgfin
  obtain ⟨hfds, hex⟩ := pendingOf_nil _ hb hfin'
  refine ⟨fun n => ?_, ?_, ?_⟩
  · obtain ⟨hb', herr', hcnt', htr'⟩ := hall n
    exact ⟨herr', hcnt', htr'⟩
  · rw [hcnt, if_pos ⟨hfds, hex⟩]
  · rw [htr, if_pos ⟨hfds, hex⟩]

/-- C4 witness: both output pipes piped, process exit delivered first, then
stderr and stdout closure: the transport ends up released exactly once. -/
theorem multiplexer_release_exactly_once_witness :
    (protoAt true true [PEv.procExit, PEv.pipeLost 2, PEv.pipeLost 1] 3).closeCount = 1 ∧
      (protoAt true true [PEv.procExit, PEv.pipeLost 2, PEv.pipeLost 1] 3).transport = false :=
  (multiplexer_release_exactly_once true true [PEv.procExit, PEv.pipeLost 2, PEv.pipeLost 1]
    (by decide)).2


/-! ## Claim theorems for async_batch -/

/-- C1: for every positive max_concurrent and every input sequence, at
every reachable instant of an async_batch run the number of operations
that are started but not completed is at most max_concurrent, and the
internal counter num_pending satisfies 0 ≤ num_pending ≤ max_concurrent
(num_pending is incremented only on an admission that displaces nothing,
the admission branch of the for-loop, and held constant otherwise). -/
theorem asyncBatch_concurrency_bound (maxC : Int) (ops : List Op) (evs : List Ev)
    (h : 1 ≤ maxC) :
    ((runBatch maxC ops evs).inFlight.length : Int) ≤ maxC ∧
      (0 : Int) ≤ ((runBatch maxC ops evs).numPending : Int) ∧
      ((runBatch maxC ops evs).numPending : Int) ≤ maxC := by
  obtain ⟨i1, i2, i3, i4, i5, i6, i7, i8, i9, i10, i11, i12⟩ := inv_runBatch maxC ops evs h
  rw [runBatch_maxC] at i2
  exact ⟨by omega, by omega, i2⟩

/-- C1 witness: three operations admitted with max_concurrent 2. -/
theorem asyncBatch_concurrency_bound_witness :
    ((runBatch 2 [⟨1, TaskRes.ok 1⟩, ⟨2, TaskRes.ok 2⟩, ⟨3, TaskRes.ok 3⟩]
        []).inFlight.length : Int) ≤ 2 ∧
      (0 : Int) ≤ ((runBatch 2 [⟨1, TaskRes.ok 1⟩, ⟨2, TaskRes.ok 2⟩, ⟨3, TaskRes.ok 3⟩]
        []).numPending : Int) ∧
      ((runBatch 2 [⟨1, TaskRes.ok 1⟩, ⟨2, TaskRes.ok 2⟩, ⟨3, TaskRes.ok 3⟩]
        []).numPending : Int) ≤ 2 :=
  asyncBatch_concurrency_bound 2 [⟨1, TaskRes.ok 1⟩, ⟨2, TaskRes.ok 2⟩, ⟨3, TaskRes.ok 3⟩]
    [] (by decide)

/-- C2 counterexample: max_concurrent 2 and five operations of which the
second fails, the configuration of the spec example.  When the failed
slot is consumed, `task.result()` re-raises inside the generator: the
batch is poisoned (phase crashed), nothing was ever yielded, operations
3, 4 and 5 were never started, and operation 1 is abandoned in flight —
refuting that the other operations are still yielded with their results. -/
theorem asyncBatch_error_poisons_cex :
    (runBatch 2 [⟨1, TaskRes.ok 1⟩, ⟨2, TaskRes.err 9⟩, ⟨3, TaskRes.ok 3⟩, ⟨4, TaskRes.ok 4⟩,
        ⟨5, TaskRes.ok 5⟩] [Ev.complete ⟨2, TaskRes.err 9⟩, Ev.resume]).phase =
        BPhase.crashed 9 ∧
      (runBatch 2 [⟨1, TaskRes.ok 1⟩, ⟨2, TaskRes.err 9⟩, ⟨3, TaskRes.ok 3⟩, ⟨4, TaskRes.ok 4⟩,
        ⟨5, TaskRes.ok 5⟩] [Ev.complete ⟨2, TaskRes.err 9⟩, Ev.resume]).yielded = [] ∧
      (runBatch 2 [⟨1, TaskRes.ok 1⟩, ⟨2, TaskRes.err 9⟩, ⟨3, TaskRes.ok 3⟩, ⟨4, TaskRes.ok 4⟩,
        ⟨5, TaskRes.ok 5⟩] [Ev.complete ⟨2, TaskRes.err 9⟩, Ev.resume]).started =
        [⟨1, TaskRes.ok 1⟩, ⟨2, TaskRes.err 9⟩] ∧
      (runBatch 2 [⟨1, TaskRes.ok 1⟩, ⟨2, TaskRes.err 9⟩, ⟨3, TaskRes.ok 3⟩, ⟨4, TaskRes.ok 4⟩,
        ⟨5, TaskRes.ok 5⟩] [Ev.complete ⟨2, TaskRes.err 9⟩, Ev.resume]).inFlight =
        [⟨1, TaskRes.ok 1⟩] := by
  decide

/-- C2 amended: a failing operation completes and resolves its rendezvous
slot like any other, and its failure cancels no sibling: after the crash,
completion callbacks still run (tasks keep moving from in-flight to
completed, their sum is preserved).  But the failure is delivered by
re-raising out of the generator, which poisons the batch operator itself:
the phase stays crashed under every further event sequence and nothing
further is ever yielded. -/
theorem asyncBatch_crash_behavior (maxC : Int) (ops : List Op) (evs evs' : List Ev) (e : Nat)
    (h : (runBatch maxC ops evs).phase = BPhase.crashed e) :
    (runBatch maxC ops (evs ++ evs')).phase = BPhase.crashed e ∧
      (runBatch maxC ops (evs ++ evs')).yielded = (runBatch maxC ops evs).yielded ∧
      (runBatch maxC ops (evs ++ evs')).inFlight.length +
          (runBatch maxC ops (evs ++ evs')).completed.length =
        (runBatch maxC ops evs).inFlight.length + (runBatch maxC ops evs).completed.length := by
  have hfold : runBatch maxC ops (evs ++ evs') =
      List.foldl step (runBatch maxC ops evs) evs' := by
    rw [runBatch, runBatch, List.foldl_append]
  obtain ⟨g1, g2, g3, g4⟩ := crash_absorbing evs' (runBatch maxC ops evs) e h
  rw [hfold]
  exact ⟨g1, g3, g4⟩

/-- C2 witness: after a crash with one task still in flight, a further
completion event is absorbed without resurrecting the generator. -/
theorem asyncBatch_crash_behavior_witness :
    (runBatch 2 [⟨1, TaskRes.ok 1⟩, ⟨2, TaskRes.err 6⟩]
        ([Ev.complete ⟨2, TaskRes.err 6⟩, Ev.resume] ++ [Ev.complete ⟨1, TaskRes.ok 1⟩])).phase =
        BPhase.crashed 6 ∧
      (runBatch 2 [⟨1, TaskRes.ok 1⟩, ⟨2, TaskRes.err 6⟩]
        ([Ev.complete ⟨2, TaskRes.err 6⟩, Ev.resume] ++ [Ev.complete ⟨1, TaskRes.ok 1⟩])).yielded =
        (runBatch 2 [⟨1, TaskRes.ok 1⟩, ⟨2, TaskRes.err 6⟩]
          [Ev.complete ⟨2, TaskRes.err 6⟩, Ev.resume]).yielded ∧
      (runBatch 2 [⟨1, TaskRes.ok 1⟩, ⟨2, TaskRes.err 6⟩]
        ([Ev.complete ⟨2, TaskRes.err 6⟩, Ev.resume] ++ [Ev.complete ⟨1, TaskRes.ok 1⟩])).inFlight.length +
          (runBatch 2 [⟨1, TaskRes.ok 1⟩, ⟨2, TaskRes.err 6⟩]
            ([Ev.complete ⟨2, TaskRes.err 6⟩, Ev.resume] ++ [Ev.complete ⟨1, TaskRes.ok 1⟩])).completed.length =
        (runBatch 2 [⟨1, TaskRes.ok 1⟩, ⟨2, TaskRes.err 6⟩]
          [Ev.complete ⟨2, TaskRes.err 6⟩, Ev.resume]).inFlight.length +
          (runBatch 2 [⟨1, TaskRes.ok 1⟩, ⟨2, TaskRes.err 6⟩]
            [Ev.complete ⟨2, TaskRes.err 6⟩, Ev.resume]).completed.length :=
  asyncBatch_crash_behavior 2 [⟨1, TaskRes.ok 1⟩, ⟨2, TaskRes.err 6⟩]
    [Ev.complete ⟨2, TaskRes.err 6⟩, Ev.resume] [Ev.complete ⟨1, TaskRes.ok 1⟩] 6 (by decide)

/-- C3: async_batch yields results in the order the underlying operations
complete, not submission order: at every reachable instant the consumed
rendezvous slots are a prefix of the completion-order list, and when the
run finishes, the consumed slots are exactly the completion order and the
yielded values are the completed tasks' results in that order. -/
theorem asyncBatch_completion_order (maxC : Int) (ops : List Op) (evs : List Ev)
    (h : 1 ≤ maxC) :
    (runBatch maxC ops evs).popped <+: (runBatch maxC ops evs).completed ∧
      ((runBatch maxC ops evs).phase = BPhase.done →
        (runBatch maxC ops evs).popped = (runBatch maxC ops evs).completed ∧
          (runBatch maxC ops evs).yielded =
            (runBatch maxC ops evs).completed.map Op.value) := by
  have hI := inv_runBatch maxC ops evs h
  constructor
  · exact ⟨_, hI.order.symm⟩
  · intro hd
    obtain ⟨hq, hfl, hpc, hlen, hy⟩ := done_facts hI hd
    refine ⟨hpc, ?_⟩
    rw [hy, hpc]

/-- C3 witness: submission order o1, o2, o3 with completion order
o3, o1, o2 yields exactly in the order o3, o1, o2. -/
theorem asyncBatch_completion_order_witness :
    (runBatch 3 [⟨1, TaskRes.ok 1⟩, ⟨2, TaskRes.ok 2⟩, ⟨3, TaskRes.ok 3⟩]
        [Ev.complete ⟨3, TaskRes.ok 3⟩, Ev.resume, Ev.complete ⟨1, TaskRes.ok 1⟩, Ev.resume,
          Ev.complete ⟨2, TaskRes.ok 2⟩, Ev.resume]).popped =
      (runBatch 3 [⟨1, TaskRes.ok 1⟩, ⟨2, TaskRes.ok 2⟩, ⟨3, TaskRes.ok 3⟩]
        [Ev.complete ⟨3, TaskRes.ok 3⟩, Ev.resume, Ev.complete ⟨1, TaskRes.ok 1⟩, Ev.resume,
          Ev.complete ⟨2, TaskRes.ok 2⟩, Ev.resume]).completed ∧
    (runBatch 3 [⟨1, TaskRes.ok 1⟩, ⟨2, TaskRes.ok 2⟩, ⟨3, TaskRes.ok 3⟩]
        [Ev.complete ⟨3, TaskRes.ok 3⟩, Ev.resume, Ev.complete ⟨1, TaskRes.ok 1⟩, Ev.resume,
          Ev.complete ⟨2, TaskRes.ok 2⟩, Ev.resume]).yielded = [3, 1, 2] :=
  ⟨((asyncBatch_completion_order 3 [⟨1, TaskRes.ok 1⟩, ⟨2, TaskRes.ok 2⟩, ⟨3, TaskRes.ok 3⟩]
      [Ev.complete ⟨3, TaskRes.ok 3⟩, Ev.resume, Ev.complete ⟨1, TaskRes.ok 1⟩, Ev.resume,
        Ev.complete ⟨2, TaskRes.ok 2⟩, Ev.resume] (by decide)).2 (by decide)).1,
    by decide⟩

/-- C5 counterexample: a single operation that eventually completes (with
an exception), max_concurrent 1: the batch does not yield exactly 1
result; it yields nothing and terminates by propagating the exception. -/
theorem asyncBatch_failure_cuts_short_cex :
    (runBatch 1 [⟨1, TaskRes.err 7⟩] [Ev.complete ⟨1, TaskRes.err 7⟩, Ev.resume]).phase =
        BPhase.crashed 7 ∧
      (runBatch 1 [⟨1, TaskRes.err 7⟩]
        [Ev.complete ⟨1, TaskRes.err 7⟩, Ev.resume]).yielded = [] := by
  decide

/-- C5 amended: for every finite input sequence of length L each of whose
operations completes successfully, async_batch yields exactly L results:
every run that reaches the end of the generator body has yielded exactly L
values, a suspended run can never deadlock (some task is still in flight,
or the front slot is resolved so the consumer can be resumed), and an
empty input yields nothing and completes immediately.  A failing operation
instead terminates the generator early by re-raising (see the C2 record). -/
theorem asyncBatch_drain_all (maxC : Int) (ops : List Op) (evs : List Ev) (h : 1 ≤ maxC) :
    ((runBatch maxC ops evs).phase = BPhase.done →
        (runBatch maxC ops evs).yielded.length = ops.length) ∧
      (∀ k, (runBatch maxC ops evs).phase = BPhase.waiting k →
        (runBatch maxC ops evs).inFlight ≠ [] ∨
          ∃ t q', (runBatch maxC ops evs).queue = some t :: q') ∧
      (runBatch maxC [] []).phase = BPhase.done ∧ (runBatch maxC [] []).yielded = [] := by
  have hI := inv_runBatch maxC ops evs h
  refine ⟨?_, ?_, rfl, rfl⟩
  · intro hd
    obtain ⟨hq, hfl, hpc, hlen, hy⟩ := done_facts hI hd
    rw [hy, List.length_map, hlen]
  · intro k hk
    exact waiting_progress hI k hk

/-- C5 witness: two successful operations with max_concurrent 3 yield
exactly 2 results. -/
theorem asyncBatch_drain_all_witness :
    (runBatch 3 [⟨1, TaskRes.ok 4⟩, ⟨2, TaskRes.ok 5⟩]
        [Ev.complete ⟨2, TaskRes.ok 5⟩, Ev.resume, Ev.complete ⟨1, TaskRes.ok 4⟩,
          Ev.resume]).yielded.length = 2 :=
  (asyncBatch_drain_all 3 [⟨1, TaskRes.ok 4⟩, ⟨2, TaskRes.ok 5⟩]
    [Ev.complete ⟨2, TaskRes.ok 5⟩, Ev.resume, Ev.complete ⟨1, TaskRes.ok 4⟩, Ev.resume]
    (by decide)).1 (by decide)

/-- C6: at every reachable instant the rendezvous deque holds only
resolved slots or only unresolved slots (never an unresolved slot before
a resolved one), and the completion order equals the already consumed
slots followed by the resolved slots still queued, oldest first — so no
later completion is ever delivered past an earlier unresolved request. -/
theorem asyncBatch_queue_invariant (maxC : Int) (ops : List Op) (evs : List Ev)
    (h : 1 ≤ maxC) :
    ((∀ x ∈ (runBatch maxC ops evs).queue, x ≠ none) ∨
        (∀ x ∈ (runBatch maxC ops evs).queue, x = none)) ∧
      (runBatch maxC ops evs).completed =
        (runBatch maxC ops evs).popped ++ (runBatch maxC ops evs).queue.filterMap id := by
  obtain ⟨i1, i2, i3, i4, i5, i6, i7, i8, i9, i10, i11, i12⟩ := inv_runBatch maxC ops evs h
  refine ⟨?_, i6⟩
  rcases i4 with h4 | h4
  · exact Or.inl h4
  · refine Or.inr ?_
    intro x hx
    rw [h4] at hx
    simpa using hx

/-- C6 witness: with the consumer suspended on an empty deque the queue is
the single unresolved slot, all-unresolved. -/
theorem asyncBatch_queue_invariant_witness :
    ((∀ x ∈ (runBatch 1 [⟨1, TaskRes.ok 1⟩] []).queue, x ≠ none) ∨
        (∀ x ∈ (runBatch 1 [⟨1, TaskRes.ok 1⟩] []).queue, x = none)) ∧
      (runBatch 1 [⟨1, TaskRes.ok 1⟩] []).completed =
        (runBatch 1 [⟨1, TaskRes.ok 1⟩] []).popped ++
          (runBatch 1 [⟨1, TaskRes.ok 1⟩] []).queue.filterMap id :=
  asyncBatch_queue_invariant 1 [⟨1, TaskRes.ok 1⟩] [] (by decide)

/-- C8 counterexample: with max_concurrent = 0 the call itself raises
nothing — calling an async generator function only creates the generator
object, running no line of the body (PEP 525) — and the ValueError
surfaces only at the first iteration, inside the async pipeline. -/
theorem asyncBatch_call_not_sync_cex :
    asyncBatchCall 0 [⟨1, TaskRes.ok 1⟩] = { maxC := 0, ops := [⟨1, TaskRes.ok 1⟩] } ∧
      agenStart (asyncBatchCall 0 [⟨1, TaskRes.ok 1⟩]) =
        Except.error "max_concurrent must be >= 1" :=
  ⟨rfl, rfl⟩

/-- C8 amended: for every max_concurrent ≤ 0 the call async_batch(...)
returns the generator object normally; the ValueError is raised at the
first iteration of the generator — deferred into the async pipeline — but
before any operation is started: the outcome of the first iteration is
the same whatever the input operations, which are never touched. -/
theorem asyncBatch_invalid_config_deferred (maxC : Int) (ops ops' : List Op) (h : maxC ≤ 0) :
    asyncBatchCall maxC ops = { maxC := maxC, ops := ops } ∧
      agenStart (asyncBatchCall maxC ops) = Except.error "max_concurrent must be >= 1" ∧
      agenStart (asyncBatchCall maxC ops) = agenStart (asyncBatchCall maxC ops') := by
  refine ⟨rfl, ?_, ?_⟩
  · rw [agenStart]
    dsimp only [asyncBatchCall]
    rw [if_pos h]
  · rw [agenStart, agenStart]
    dsimp only [asyncBatchCall]
    rw [if_pos h, if_pos h]

/-- C8 witness: the amended claim at max_concurrent = -2. -/
theorem asyncBatch_invalid_config_deferred_witness :
    asyncBatchCall (-2) [⟨1, TaskRes.ok 1⟩] = { maxC := -2, ops := [⟨1, TaskRes.ok 1⟩] } ∧
      agenStart (asyncBatchCall (-2) [⟨1, TaskRes.ok 1⟩]) =
        Except.error "max_concurrent must be >= 1" ∧
      agenStart (asyncBatchCall (-2) [⟨1, TaskRes.ok 1⟩]) =
        agenStart (asyncBatchCall (-2) []) :=
  asyncBatch_invalid_config_deferred (-2) [⟨1, TaskRes.ok 1⟩] [] (by decide)

end AsyncUtil
